import Mathlib

set_option maxHeartbeats 1000000

namespace Utils

/-- Machine word cardinality: the embedding fixes usize at 64 bits, so the wrapping
arithmetic of the source is arithmetic modulo 2 ^ 64. -/
def WORD : Nat := 2 ^ 64

namespace CyclicGroup

/-- Embedding of struct CyclicIndex from src/src/math/cyclic_group.rs. -/
structure CyclicIndex where
  index : Nat
  size : Nat
deriving DecidableEq, Repr

/-- CyclicIndex::new from src/src/math/cyclic_group.rs: stores the pair as given,
with no reduction of index modulo size. -/
def CyclicIndex.new (index size : Nat) : CyclicIndex :=
  { index := index, size := size }

/-- CyclicIndex::value from src/src/math/cyclic_group.rs. -/
def CyclicIndex.value (c : CyclicIndex) : Nat := c.index

/-- Cyclic::increment_by for CyclicIndex in src/src/math/cyclic_group.rs:
index becomes (Wrapping(index) + Wrapping(num)).0 % size. -/
def CyclicIndex.increment_by (c : CyclicIndex) (num : Nat) : CyclicIndex :=
  { c with index := ((c.index + num) % WORD) % c.size }

/-- Cyclic::decrement_by for CyclicIndex in src/src/math/cyclic_group.rs:
index becomes (Wrapping(index) - Wrapping(num)).0 % size; the wrapping
subtraction of num (a usize, reduced modulo the word) is addition of
WORD - num % WORD modulo the word. -/
def CyclicIndex.decrement_by (c : CyclicIndex) (num : Nat) : CyclicIndex :=
  { c with index := ((c.index + (WORD - num % WORD)) % WORD) % c.size }

/-- Cyclic::increment for CyclicIndex in src/src/math/cyclic_group.rs:
defined in the source as increment_by(1). -/
def CyclicIndex.increment (c : CyclicIndex) : CyclicIndex :=
  c.increment_by 1

/-- Cyclic::decrement for CyclicIndex in src/src/math/cyclic_group.rs:
defined in the source as decrement_by(1). -/
def CyclicIndex.decrement (c : CyclicIndex) : CyclicIndex :=
  c.decrement_by 1

/-- Add for CyclicIndex in src/src/math/cyclic_group.rs: clones and applies
increment_by, leaving the operand unmodified. -/
def CyclicIndex.add (c : CyclicIndex) (rhs : Nat) : CyclicIndex :=
  c.increment_by rhs

end CyclicGroup

namespace HistoryRs

open CyclicGroup

/-- Embedding of struct Cycle from src/src/history.rs: a vector of values, the
CyclicIndex where the next record will be pushed, and an optional CyclicIndex
where the earliest record is (none when no valid record was pushed). -/
structure Cycle (T : Type) where
  values : List T
  next : CyclicIndex
  start : Option CyclicIndex
deriving DecidableEq, Repr

/-- Cycle::new from src/src/history.rs: capacity placeholder slots made with
CycleDefault (modelled by Inhabited.default), start none, next at 0. -/
def Cycle.new (T : Type) [Inhabited T] (capacity : Nat) : Cycle T :=
  { values := List.replicate capacity default
    next := CyclicIndex.new 0 capacity
    start := none }

/-- Cycle::clear from src/src/history.rs: only sets start to none; the values
and the next cursor are left untouched. -/
def Cycle.clear (c : Cycle T) : Cycle T :=
  { c with start := none }

/-- Cycle::push from src/src/history.rs. The PartialEq of CyclicIndex in the
source compares value() only, so the full test start == next + 1 compares the
index fields; next + 1 is the pure Add, a clone incremented by 1. The value is
then written at next.value() and next is incremented in place. -/
def Cycle.push (c : Cycle T) (value : T) : Cycle T :=
  let start2 : Option CyclicIndex :=
    match c.start with
    | some s =>
        if s.index = (c.next.add 1).index then some (s.add 1) else some s
    | none => some c.next
  { values := c.values.set c.next.index value
    next := c.next.increment_by 1
    start := start2 }

/-- Fallible view of Cycle::push: in Rust the indexing panics when
next.index is out of bounds and the modular increment panics when size is 0;
both conditions are checked here and yield none. -/
def Cycle.pushO (c : Cycle T) (value : T) : Option (Cycle T) :=
  if c.next.index < c.values.length ∧ 0 < c.next.size then some (c.push value)
  else none

/-- Loop body of Iterator::next for CycleIntoIterator in src/src/history.rs,
unrolled into a list with fuel: starting from the current cursor, stop on none
or when the cursor equals next (PartialEq on the index field), else yield the
value at the cursor and advance the cursor by the pure Add of 1. An
out-of-bounds read, a panic in Rust, yields nothing; it is unreachable from
states built by new and push with positive capacity. -/
def Cycle.iterFrom (c : Cycle T) (fuel : Nat) (cur0 : Option CyclicIndex) : List T :=
  match cur0 with
  | none => []
  | some cur =>
    match fuel with
    | 0 => []
    | Nat.succ fuel =>
      if cur.index = c.next.index then []
      else
        match c.values.get? cur.index with
        | none => []
        | some item => item :: c.iterFrom fuel (some (cur.add 1))

/-- Full chronological iteration of a Cycle, from start as set up by
IntoIterator in src/src/history.rs; capacity steps of fuel bound the walk. -/
def Cycle.iterList (c : Cycle T) : List T :=
  c.iterFrom c.values.length c.start

/-- Pushing a list of values left to right. -/
def cyclePushAll (c : Cycle T) (vs : List T) : Cycle T :=
  vs.foldl Cycle.push c

/-- Well-formedness of a Cycle state as established by Cycle::new with positive
capacity and preserved by push and clear. -/
def Cycle.cinv (c : Cycle T) : Prop :=
  c.next.size = c.values.length ∧ c.next.index < c.values.length

instance (c : Cycle T) : Decidable c.cinv := by
  unfold Cycle.cinv
  infer_instance

end HistoryRs

namespace LibRs

/-- Embedding of struct CyclicIndex from src/src/lib.rs, the second of the two
parallel implementations. -/
structure CyclicIndex where
  index : Nat
  size : Nat
deriving DecidableEq, Repr

/-- CyclicIndex::new from src/src/lib.rs: stores the pair as given. -/
def CyclicIndex.new (index size : Nat) : CyclicIndex :=
  { index := index, size := size }

/-- Cyclic::increment for CyclicIndex in src/src/lib.rs. -/
def CyclicIndex.increment (c : CyclicIndex) : CyclicIndex :=
  { c with index := ((c.index + 1) % WORD) % c.size }

/-- Cyclic::decrement for CyclicIndex in src/src/lib.rs: wrapping subtraction
of 1 followed by reduction modulo size. -/
def CyclicIndex.decrement (c : CyclicIndex) : CyclicIndex :=
  { c with index := ((c.index + (WORD - 1)) % WORD) % c.size }

/-- Cyclic::increment_by for CyclicIndex in src/src/lib.rs. -/
def CyclicIndex.increment_by (c : CyclicIndex) (num : Nat) : CyclicIndex :=
  { c with index := ((c.index + num) % WORD) % c.size }

/-- Cyclic::decrement_by for CyclicIndex in src/src/lib.rs: the source body is
(Wrapping(self.index) + Wrapping(num)).0 % self.size — it adds num, exactly as
increment_by does, rather than subtracting it. -/
def CyclicIndex.decrement_by (c : CyclicIndex) (num : Nat) : CyclicIndex :=
  { c with index := ((c.index + num) % WORD) % c.size }

/-- Embedding of struct History from src/src/lib.rs. -/
structure History (T : Type) where
  values : List T
  ptr : CyclicIndex
  count : Nat
deriving DecidableEq, Repr

/-- History::new from src/src/lib.rs: capacity slots of the HistoryDefault
placeholder (modelled by Inhabited.default), count 0, cursor at 0 with size
capacity. It accepts any capacity, including 0, and cannot fail. -/
def History.new (T : Type) [Inhabited T] (capacity : Nat) : History T :=
  { values := List.replicate capacity default
    ptr := CyclicIndex.new 0 capacity
    count := 0 }

/-- History::clear from src/src/lib.rs: count to 0 and cursor index to 0;
values untouched. -/
def History.clear (h : History T) : History T :=
  { h with count := 0, ptr := { h.ptr with index := 0 } }

/-- History::push from src/src/lib.rs: count is bumped while below capacity,
the value is written at the cursor, and the cursor is incremented. -/
def History.push (h : History T) (value : T) : History T :=
  { values := h.values.set h.ptr.index value
    ptr := h.ptr.increment
    count := if h.count < h.values.length then h.count + 1 else h.count }

/-- Fallible view of History::push: in Rust the slot write panics when the
cursor index is out of bounds (as on a capacity 0 history) and the modular
increment panics when the cursor size is 0; both yield none here. -/
def History.pushO (h : History T) (value : T) : Option (History T) :=
  if h.ptr.index < h.values.length ∧ 0 < h.ptr.size then some (h.push value)
  else none

/-- Iterator::next for HistoryIntoIterator in src/src/lib.rs, unrolled: for
i below count, yield the value at (len + ptr.index - 1 - i) % len. -/
def History.iterList [Inhabited T] (h : History T) : List T :=
  (List.range h.count).map fun i =>
    h.values.getD ((h.values.length + h.ptr.index - 1 - i) % h.values.length)
      default

/-- Pushing a list of values left to right. -/
def pushAll [Inhabited T] (h : History T) (vs : List T) : History T :=
  vs.foldl History.push h

/-- Well-formedness of a History state as established by History::new with
positive capacity and preserved by push and clear. -/
def History.inv (h : History T) : Prop :=
  h.ptr.size = h.values.length ∧ h.ptr.index < h.values.length

instance (h : History T) : Decidable h.inv := by
  unfold History.inv
  infer_instance

/-- Chronological order of a Bounded History, written from the spec: the last
min(number of pushes, capacity) pushed values, oldest first (section 4.2:
exactly logical_count values, oldest to newest). -/
def chronologicalSpec (c : Nat) (vs : List T) : List T :=
  vs.drop (vs.length - c)

end LibRs

namespace ProbabilityRs

/-- Embedding of struct Probability from src/src/math/probability.rs. -/
structure Probability (R : Type) where
  inner : R
deriving DecidableEq, Repr

/-- Add for Probability in src/src/math/probability.rs:
inner becomes self.inner + rhs.inner - self.inner * rhs.inner. -/
def Probability.add {R : Type} [Add R] [Sub R] [Mul R]
    (a b : Probability R) : Probability R :=
  { inner := a.inner + b.inner - a.inner * b.inner }

/-- Sub for Probability in src/src/math/probability.rs:
inner becomes (self.inner - rhs.inner) / (R::from(1.0) - rhs.inner), with the
unit of R standing for R::from(1.0). -/
def Probability.sub {R : Type} [Sub R] [Div R] [One R]
    (a b : Probability R) : Probability R :=
  { inner := (a.inner - b.inner) / (1 - b.inner) }

end ProbabilityRs

end Utils

namespace Utils

open CyclicGroup HistoryRs LibRs ProbabilityRs

/-- Claim C1: pushing exactly c values into a capacity c Cycle and iterating
chronologically is claimed to yield all c values in push order, and pushing
c + k values to yield the last c; the code instead retires the oldest element
one push early: with capacity 3, pushes 1, 2, 3 iterate as [2, 3] and pushes
1, 2, 3, 4 iterate as [3, 4], not [2, 3, 4]. -/
theorem cycle_chronological_iteration_drops_oldest :
    ((HistoryRs.Cycle.new Nat 3).push 1 |>.push 2 |>.push 3).iterList = [2, 3] ∧
    ((HistoryRs.Cycle.new Nat 3).push 1 |>.push 2 |>.push 3 |>.push 4).iterList
      = [3, 4] := by
  constructor <;> decide

/-- Claim C2: decrement_by is claimed to realize the mathematical residue
(position - delta) mod modulus. The lib.rs implementation adds the delta:
from position 0 with modulus 8, decrement_by(1) yields 1, not 7. The
cyclic_group.rs implementation reduces the wrapped 64-bit word by the modulus:
from position 0 with modulus 3, decrement_by(1) yields (2 ^ 64 - 1) % 3 = 0,
not 2, because 3 does not divide 2 ^ 64. -/
theorem decrement_by_wrong_residue :
    ((LibRs.CyclicIndex.new 0 8).decrement_by 1).index = 1 ∧
    ((LibRs.CyclicIndex.new 0 8).decrement_by 1).index ≠ 7 ∧
    ((CyclicGroup.CyclicIndex.new 0 3).decrement_by 1).index = 0 ∧
    ((CyclicGroup.CyclicIndex.new 0 3).decrement_by 1).index ≠ 2 := by
  refine ⟨?_, ?_, ?_, ?_⟩ <;> decide

/-- Claim C3, counterexample: with modulus 3 and position 0, increment_by(3)
followed by decrement_by(3) lands on 1, not back on 0, because the wrapped
word value is reduced by a modulus that does not divide 2 ^ 64. -/
theorem inc_then_dec_not_identity_mod_three :
    (((CyclicGroup.CyclicIndex.new 0 3).increment_by 3).decrement_by 3).index
      ≠ (CyclicGroup.CyclicIndex.new 0 3).index := by
  decide

/-- Claim C3, amended: for the cyclic_group.rs implementation, when the modulus
divides 2 ^ 64 (in particular for every power of two modulus), position below
the modulus, and delta below 2 ^ 64, increment_by(delta) then decrement_by,
with the same delta, restores the original position. -/
theorem inc_then_dec_identity_of_dvd (p m d : Nat) (hdvd : m ∣ WORD)
    (hp : p < m) (hd : d < WORD) :
    (((CyclicGroup.CyclicIndex.new p m).increment_by d).decrement_by d).index
      = p := by
  obtain ⟨k, hk⟩ := hdvd
  simp only [CyclicGroup.CyclicIndex.new, CyclicGroup.CyclicIndex.increment_by,
    CyclicGroup.CyclicIndex.decrement_by]
  rw [Nat.mod_eq_of_lt hd]
  rw [Nat.mod_mod_of_dvd _ ⟨k, hk⟩, Nat.mod_mod_of_dvd _ ⟨k, hk⟩]
  have h1 : ((p + d) % m + (WORD - d)) % m = ((p + d) + (WORD - d)) % m :=
    Nat.ModEq.add_right _ (Nat.mod_modEq _ m)
  have h2 : (p + d) + (WORD - d) = p + WORD := by
    have : d ≤ WORD := Nat.le_of_lt hd
    omega
  rw [h1, h2, hk, Nat.add_mul_mod_self_left, Nat.mod_eq_of_lt hp]

/-- Claim C3, witness: modulus 8, position 5, and a delta close to the word
maximum, so that intermediate wrapping genuinely occurs. -/
theorem inc_then_dec_identity_witness :
    (((CyclicGroup.CyclicIndex.new 5 8).increment_by (WORD - 3)).decrement_by
      (WORD - 3)).index = 5 :=
  inc_then_dec_identity_of_dvd 5 8 (WORD - 3) (by decide) (by decide)
    (by decide)

/-- Claim C5, counterexample: CyclicIndex::new stores the position as given,
without reduction, so new(5, 3) violates the claimed invariant
0 <= position < modulus at construction. -/
theorem new_does_not_reduce_position :
    ¬ ((CyclicGroup.CyclicIndex.new 5 3).index < 3) := by
  decide

/-- Claim C5, amended: construction stores the position unreduced, so the
invariant can fail at construction; but for every modulus above 0, every one
of increment_by, decrement_by, increment and decrement leaves the position in
the interval from 0 inclusive to the modulus exclusive, from any starting
position, including underflow on decrement from 0. -/
theorem cyclic_operations_stay_in_range (p m d : Nat) (hm : 0 < m) :
    ((CyclicGroup.CyclicIndex.new p m).increment_by d).index < m ∧
    ((CyclicGroup.CyclicIndex.new p m).decrement_by d).index < m ∧
    ((CyclicGroup.CyclicIndex.new p m).increment).index < m ∧
    ((CyclicGroup.CyclicIndex.new p m).decrement).index < m := by
  refine ⟨?_, ?_, ?_, ?_⟩ <;>
    simp only [CyclicGroup.CyclicIndex.new, CyclicGroup.CyclicIndex.increment,
      CyclicGroup.CyclicIndex.decrement, CyclicGroup.CyclicIndex.increment_by,
      CyclicGroup.CyclicIndex.decrement_by] <;>
    exact Nat.mod_lt _ hm

/-- Claim C5, witness: modulus 3, position 0, delta 5; in particular the
decrement from 0 underflows and still lands inside the range. -/
theorem cyclic_operations_stay_in_range_witness :
    ((CyclicGroup.CyclicIndex.new 0 3).decrement_by 5).index < 3 :=
  (cyclic_operations_stay_in_range 0 3 5 (by decide)).2.1

/-- Claim C6, counterexample: Cycle::clear in history.rs does not rewind the
write cursor to its initial position 0: with capacity 2, after one push and a
clear the next cursor still sits at 1. -/
theorem cycle_clear_does_not_rewind_cursor :
    (((HistoryRs.Cycle.new Nat 2).push 5).clear).next.index = 1 ∧
    ¬ ((((HistoryRs.Cycle.new Nat 2).push 5).clear).next.index = 0) := by
  constructor <;> decide

/-- Claim C6, amended: clear makes the history read as empty while leaving
every slot of the backing storage unchanged, and a subsequent iteration is
empty; History::clear also rewinds the write cursor to 0, but Cycle::clear
only drops the start marker and leaves the write cursor where it was. -/
theorem clear_frame_conditions {T : Type} [Inhabited T]
    (h : LibRs.History T) (c : HistoryRs.Cycle T) :
    h.clear.count = 0 ∧ h.clear.ptr.index = 0 ∧ h.clear.values = h.values ∧
    h.clear.iterList = [] ∧
    c.clear.start = none ∧ c.clear.values = c.values ∧ c.clear.next = c.next ∧
    c.clear.iterList = [] := by
  refine ⟨rfl, rfl, rfl, ?_, rfl, rfl, rfl, ?_⟩
  · simp [LibRs.History.iterList, LibRs.History.clear]
  · simp [HistoryRs.Cycle.iterList, HistoryRs.Cycle.clear,
      HistoryRs.Cycle.iterFrom]

/-- Claim C8: with capacity 1, the History implementation in lib.rs does
saturate count at 1 and expose the most recent value through its iterator, but
the Cycle implementation, the one offering chronological iteration, yields
nothing at all: after the push, start equals next, the very state the push
comment in the source claims to be impossible, so its iterator terminates
immediately instead of yielding the pushed value. -/
theorem capacity_one_chronological_iteration_empty :
    ((HistoryRs.Cycle.new Nat 1).push 7).iterList = [] ∧
    ((HistoryRs.Cycle.new Nat 1).push 7).start
      = some (CyclicGroup.CyclicIndex.new 0 1) ∧
    ((HistoryRs.Cycle.new Nat 1).push 7).next
      = CyclicGroup.CyclicIndex.new 0 1 ∧
    ((LibRs.History.new Nat 1).push 7 |>.push 9).count = 1 ∧
    ((LibRs.History.new Nat 1).push 7 |>.push 9).iterList = [9] := by
  refine ⟨?_, ?_, ?_, ?_, ?_⟩ <;> decide

/-- Claim C10: over exact arithmetic, here the rationals, the probability
combination a + b - a * b is commutative, and for b different from 1 the
subtraction (r - b) / (1 - b) undoes it on the right. -/
theorem probability_add_comm_and_sub_inverse (a b : Probability ℚ) :
    a.add b = b.add a ∧ (b.inner ≠ 1 → (a.add b).sub b = a) := by
  obtain ⟨x⟩ := a
  obtain ⟨y⟩ := b
  constructor
  · simp only [Probability.add, Probability.mk.injEq]
    ring
  · intro hy
    simp only [Probability.add, Probability.sub, Probability.mk.injEq]
    have h1 : (1 : ℚ) - y ≠ 0 := sub_ne_zero.mpr (Ne.symm hy)
    have h2 : x + y - x * y - y = x * (1 - y) := by ring
    rw [h2, mul_div_cancel_right₀ _ h1]

/-- Claim C10, witness: combining one half with one half gives three quarters,
and subtracting one half gives one half back. -/
theorem probability_sub_inverse_witness :
    (Probability.sub
      (Probability.add (Probability.mk ((1 : ℚ) / 2)) (Probability.mk (1 / 2)))
      (Probability.mk (1 / 2))) = Probability.mk ((1 : ℚ) / 2) :=
  (probability_add_comm_and_sub_inverse (Probability.mk ((1 : ℚ) / 2))
    (Probability.mk (1 / 2))).2 (by norm_num)


/-- Helper: History::new with positive capacity establishes the
well-formedness invariant. -/
theorem history_inv_new {T : Type} [Inhabited T] (c : Nat) (hc : 0 < c) :
    (LibRs.History.new T c).inv := by
  constructor
  · simp [LibRs.History.new, LibRs.CyclicIndex.new]
  · simpa [LibRs.History.new, LibRs.CyclicIndex.new] using hc

/-- Helper: History::push preserves the well-formedness invariant. -/
theorem history_inv_push {T : Type} (h : LibRs.History T) (hinv : h.inv)
    (v : T) : (h.push v).inv := by
  obtain ⟨hsz, hix⟩ := hinv
  have hpos : 0 < h.ptr.size := by omega
  constructor
  · simp [LibRs.History.push, LibRs.CyclicIndex.increment, hsz]
  · simp only [LibRs.History.push, LibRs.CyclicIndex.increment,
      List.length_set]
    rw [← hsz]
    exact Nat.mod_lt _ hpos

/-- Helper: on a well-formed state the fallible push succeeds and returns
exactly the pure push. -/
theorem history_pushO_eq {T : Type} (h : LibRs.History T) (hinv : h.inv)
    (v : T) : h.pushO v = some (h.push v) := by
  obtain ⟨hsz, hix⟩ := hinv
  have hpos : 0 < h.ptr.size := by omega
  simp [LibRs.History.pushO, hix, hpos]

/-- Helper: History::clear preserves the well-formedness invariant. -/
theorem history_inv_clear {T : Type} (h : LibRs.History T) (hinv : h.inv) :
    h.clear.inv := by
  obtain ⟨hsz, hix⟩ := hinv
  refine ⟨hsz, ?_⟩
  simp only [LibRs.History.clear]
  omega

/-- Helper: Cycle::new with positive capacity establishes the
well-formedness invariant. -/
theorem cycle_cinv_new {T : Type} [Inhabited T] (c : Nat) (hc : 0 < c) :
    (HistoryRs.Cycle.new T c).cinv := by
  constructor
  · simp [HistoryRs.Cycle.new, CyclicGroup.CyclicIndex.new]
  · simpa [HistoryRs.Cycle.new, CyclicGroup.CyclicIndex.new] using hc

/-- Helper: Cycle::push preserves the well-formedness invariant. -/
theorem cycle_cinv_push {T : Type} (c : HistoryRs.Cycle T) (hinv : c.cinv)
    (v : T) : (c.push v).cinv := by
  obtain ⟨hsz, hix⟩ := hinv
  have hpos : 0 < c.next.size := by omega
  constructor
  · simp [HistoryRs.Cycle.push, CyclicGroup.CyclicIndex.increment_by, hsz]
  · simp only [HistoryRs.Cycle.push, CyclicGroup.CyclicIndex.increment_by,
      List.length_set]
    rw [← hsz]
    exact Nat.mod_lt _ hpos

/-- Helper: on a well-formed state the fallible Cycle push succeeds and
returns exactly the pure push. -/
theorem cycle_pushO_eq {T : Type} (c : HistoryRs.Cycle T) (hinv : c.cinv)
    (v : T) : c.pushO v = some (c.push v) := by
  obtain ⟨hsz, hix⟩ := hinv
  have hpos : 0 < c.next.size := by omega
  simp [HistoryRs.Cycle.pushO, hix, hpos]

/-- Claim C7, counterexample: construction with capacity 0 does not fail, in
either implementation there is no InvalidCapacity; it returns a zero-capacity
history, and the first push on it faults, so an operation other than
construction does fail. -/
theorem construction_never_fails_at_zero :
    (LibRs.History.new Nat 0).values.length = 0 ∧
    (LibRs.History.new Nat 0).count = 0 ∧
    LibRs.History.pushO (LibRs.History.new Nat 0) 7 = none ∧
    HistoryRs.Cycle.pushO (HistoryRs.Cycle.new Nat 0) 7 = none := by
  refine ⟨?_, ?_, ?_, ?_⟩ <;> decide

/-- Claim C7, amended: construction never fails for any capacity, 0 included;
for every state satisfying the positive-capacity well-formedness invariant,
which new establishes for capacity above 0 and push and clear preserve, push
succeeds, and clear and iteration are total; only push on a capacity 0 history
faults. -/
theorem construction_total_and_ops_total {T : Type} [Inhabited T]
    (capacity : Nat) (hc : 0 < capacity) (h : LibRs.History T) (hinv : h.inv)
    (v : T) (cy : HistoryRs.Cycle T) (hcy : cy.cinv) :
    (LibRs.History.new T capacity).count = 0 ∧
    (LibRs.History.new T capacity).values.length = capacity ∧
    (LibRs.History.new T capacity).inv ∧
    (HistoryRs.Cycle.new T capacity).cinv ∧
    h.pushO v = some (h.push v) ∧ (h.push v).inv ∧ h.clear.inv ∧
    cy.pushO v = some (cy.push v) ∧ (cy.push v).cinv ∧ cy.clear.cinv := by
  refine ⟨rfl, by simp [LibRs.History.new], history_inv_new capacity hc,
    cycle_cinv_new capacity hc, history_pushO_eq h hinv v,
    history_inv_push h hinv v, history_inv_clear h hinv,
    cycle_pushO_eq cy hcy v, cycle_cinv_push cy hcy v, ?_⟩
  exact ⟨hcy.1, hcy.2⟩

/-- Claim C7, witness: capacity 1, a freshly constructed history and cycle. -/
theorem construction_total_and_ops_total_witness :
    LibRs.History.pushO (LibRs.History.new Nat 1) 7
      = some ((LibRs.History.new Nat 1).push 7) :=
  (construction_total_and_ops_total 1 (by decide) (LibRs.History.new Nat 1)
    (by decide) 7 (HistoryRs.Cycle.new Nat 1) (by decide)).2.2.2.2.1

/-- Claim C9: History::new(0) succeeds without reporting any error and returns
a zero-capacity history, every push on that history faults, and on every
well-formed state, capacity above 0, the push error branch is unreachable. -/
theorem new_zero_succeeds_and_push_faults :
    (LibRs.History.new Nat 0).count = 0 ∧
    (LibRs.History.new Nat 0).values = [] ∧
    (∀ v : Nat, LibRs.History.pushO (LibRs.History.new Nat 0) v = none) ∧
    (∀ h : LibRs.History Nat, h.inv → ∀ v : Nat,
      (h.pushO v).isSome = true) ∧
    (∀ c : Nat, 0 < c → (LibRs.History.new Nat c).inv) := by
  refine ⟨rfl, rfl, ?_, ?_, ?_⟩
  · intro v
    simp [LibRs.History.pushO, LibRs.History.new, LibRs.CyclicIndex.new]
  · intro h hinv v
    rw [history_pushO_eq h hinv v]
    rfl
  · intro c hc
    exact history_inv_new c hc

/-- Claim C9, witness: push on the capacity 0 history faults while push on a
capacity 1 history succeeds. -/
theorem new_zero_succeeds_and_push_faults_witness :
    LibRs.History.pushO (LibRs.History.new Nat 0) 7 = none ∧
    (LibRs.History.pushO (LibRs.History.new Nat 1) 7).isSome = true :=
  ⟨new_zero_succeeds_and_push_faults.2.2.1 7,
   new_zero_succeeds_and_push_faults.2.2.2.1 (LibRs.History.new Nat 1)
     (by decide) 7⟩

end Utils

namespace Utils

open LibRs

/-- Helper: arithmetic of the cursor increment, one successor step modulo the
capacity. -/
theorem mod_succ_step (n c : Nat) : (n % c + 1) % c = (n + 1) % c := by
  rw [Nat.add_mod (n % c) 1 c, Nat.mod_mod_of_dvd _ dvd_rfl, ← Nat.add_mod]

/-- Helper: full characterization of the History state after pushing a list of
values into a fresh history of positive capacity below the word bound: the
capacity, cursor and count, and the slot contents of the last
min(pushes, capacity) values. -/
theorem pushAll_state {T : Type} [Inhabited T] (c : Nat) (hc : 0 < c)
    (hcW : c < WORD) (vs : List T) :
    (pushAll (History.new T c) vs).values.length = c ∧
    (pushAll (History.new T c) vs).ptr.size = c ∧
    (pushAll (History.new T c) vs).ptr.index = vs.length % c ∧
    (pushAll (History.new T c) vs).count = min vs.length c ∧
    ∀ i, i < min vs.length c →
      (pushAll (History.new T c) vs).values[(vs.length - 1 - i) % c]?
        = vs[vs.length - 1 - i]? := by
  induction vs using List.reverseRecOn with
  | nil =>
    refine ⟨by simp [pushAll, History.new], rfl, by simp [pushAll, History.new, CyclicIndex.new], by simp [pushAll, History.new], ?_⟩
    intro i hi
    simp at hi
  | append_singleton ws v ih =>
    obtain ⟨hlen, hsz, hidx, hcount, hvals⟩ := ih
    have hstep : pushAll (History.new T c) (ws ++ [v])
        = (pushAll (History.new T c) ws).push v := by
      simp [pushAll]
    set h := pushAll (History.new T c) ws with hdef
    set n := ws.length with hn
    have hlen2 : ((h.push v).values).length = c := by
      simp [History.push, hlen]
    have hsz2 : (h.push v).ptr.size = c := by
      simp [History.push, CyclicIndex.increment, hsz]
    have hidx2 : (h.push v).ptr.index = (n + 1) % c := by
      have hlt : n % c + 1 < WORD := by
        have : n % c < c := Nat.mod_lt _ hc
        omega
      simp only [History.push, CyclicIndex.increment, hsz, hidx]
      rw [Nat.mod_eq_of_lt hlt, mod_succ_step]
    have hcount2 : (h.push v).count = min (n + 1) c := by
      simp only [History.push, hlen, hcount]
      split <;> omega
    have hvals2 : ∀ i, i < min (n + 1) c →
        ((h.push v).values)[(n + 1 - 1 - i) % c]? = (ws ++ [v])[n + 1 - 1 - i]? := by
      intro i hi
      have hsucc : n + 1 - 1 = n := rfl
      rw [hsucc]
      have hic : i < c := by omega
      have hin : i < n + 1 := by omega
      simp only [History.push, hidx]
      rcases Nat.eq_zero_or_pos i with hi0 | hipos
      · subst hi0
        simp only [Nat.sub_zero]
        rw [List.getElem?_set_self (by rw [hlen]; exact Nat.mod_lt _ hc)]
        rw [hn, List.getElem?_concat_length]
      · have hjn : n - i ≤ n := Nat.sub_le _ _
        have hne : n % c ≠ (n - i) % c := by
          intro heq
          have hmeq : Nat.ModEq c (n - i) n := heq.symm
          have hdvd : c ∣ n - (n - i) := (Nat.modEq_iff_dvd' hjn).mp hmeq
          have hin2 : i ≤ n := by omega
          have : n - (n - i) = i := by omega
          rw [this] at hdvd
          have := Nat.le_of_dvd hipos hdvd
          omega
        rw [List.getElem?_set_ne hne]
        have hlt : i - 1 < min n c := by omega
        have heqi : n - 1 - (i - 1) = n - i := by omega
        have := hvals (i - 1) hlt
        rw [heqi] at this
        rw [this]
        have hni : n - i < ws.length := by omega
        rw [List.getElem?_append_left hni]
    rw [hstep]
    refine ⟨hlen2, hsz2, ?_, ?_, ?_⟩
    · simpa using hidx2
    · simpa using hcount2
    · simpa using hvals2

/-- Claim C4: reverse iteration of the lib.rs History after any sequence of
pushes into a fresh history of positive capacity yields exactly the reverse of
the chronological order of the retained values, the last min(pushes, capacity)
pushed values oldest first as the spec defines it, and its length equals the
logical count. -/
theorem history_reverse_iteration (T : Type) [Inhabited T] (c : Nat)
    (hc : 0 < c) (hcW : c < WORD) (vs : List T) :
    (pushAll (History.new T c) vs).iterList
      = (chronologicalSpec c vs).reverse ∧
    (pushAll (History.new T c) vs).iterList.length
      = (pushAll (History.new T c) vs).count := by
  obtain ⟨hlen, hsz, hidx, hcount, hvals⟩ := pushAll_state c hc hcW vs
  set h := pushAll (History.new T c) vs with hdef
  set n := vs.length with hn
  set m := min n c with hm
  have hlist : h.iterList = (chronologicalSpec c vs).reverse := by
    apply List.ext_getElem?
    intro i
    by_cases hi : i < m
    · have hin : i < n := by omega
      have hic : i < c := by omega
      have hL : h.iterList[i]? = some (h.values.getD
          ((h.values.length + h.ptr.index - 1 - i) % h.values.length) default) := by
        simp only [History.iterList, List.getElem?_map, hcount]
        rw [List.getElem?_range (by omega)]
        rfl
      have hslot : (h.values.length + h.ptr.index - 1 - i) % h.values.length
          = (n - 1 - i) % c := by
        rw [hlen, hidx]
        have hq : n % c + c * (n / c) = n := Nat.mod_add_div n c
        have e2 : c + n % c - 1 - i + c * (n / c) = c + (n - 1 - i) := by omega
        calc (c + n % c - 1 - i) % c
            = (c + n % c - 1 - i + c * (n / c)) % c :=
              (Nat.add_mul_mod_self_left _ c (n / c)).symm
          _ = (c + (n - 1 - i)) % c := by rw [e2]
          _ = (n - 1 - i) % c := Nat.add_mod_left c _
      have hget : h.values[(n - 1 - i) % c]? = vs[n - 1 - i]? := hvals i hi
      have hvsi : vs[n - 1 - i]? = some vs[n - 1 - i] :=
        List.getElem?_eq_getElem (by omega)
      have hLval : h.iterList[i]? = some vs[n - 1 - i] := by
        rw [hL, hslot]
        rw [List.getD_eq_getElem?_getD, hget, hvsi]
        rfl
      have hR : (chronologicalSpec c vs).reverse[i]? = some vs[n - 1 - i] := by
        have hlenc : (chronologicalSpec c vs).length = m := by
          simp [chronologicalSpec, ← hn]
          omega
        rw [List.getElem?_reverse (by rw [hlenc]; exact hi)]
        rw [hlenc]
        simp only [chronologicalSpec, List.getElem?_drop]
        have : n - c + (m - 1 - i) = n - 1 - i := by omega
        rw [this, hvsi]
      rw [hLval, hR]
    · have hLnone : h.iterList[i]? = none := by
        apply List.getElem?_eq_none
        simp only [History.iterList, List.length_map, List.length_range, hcount]
        omega
      have hRnone : (chronologicalSpec c vs).reverse[i]? = none := by
        apply List.getElem?_eq_none
        simp only [List.length_reverse, chronologicalSpec, List.length_drop]
        omega
      rw [hLnone, hRnone]
  refine ⟨hlist, ?_⟩
  rw [hlist, hcount]
  simp only [List.length_reverse, chronologicalSpec, List.length_drop]
  omega


/-- Claim C4, witness: capacity 3, pushes 1, 2, 3, 4; reverse iteration yields
[4, 3, 2], the reverse of the chronological [2, 3, 4]. -/
theorem history_reverse_iteration_witness :
    (pushAll (History.new Nat 3) [1, 2, 3, 4]).iterList = [4, 3, 2] :=
  ((history_reverse_iteration Nat 3 (by decide) (by decide) [1, 2, 3, 4]).1).trans
    (by decide)

end Utils
